import Mathlib

/-!
Verification development for the CardIQ credit-card statement parser.

The repository has a React frontend (`frontend/src/App.jsx`) that uploads a
PDF to a local parse endpoint and renders five extracted fields, and a
specified extraction engine (bank identification, candidate location, value
normalization, confidence scoring, field resolution, orchestration) whose
Python sources are not part of the repository snapshot; the engine is
modelled here from the specification document.

Frontend functions (`cleanText`, the `upload` handler, the result rendering)
are embedded directly from `frontend/src/App.jsx`.
-/

namespace CardIQ

/-! ## Shared data model: field keys and field results (output contract) -/

/-- The five fixed field keys of the output contract. -/
inductive FieldKey
  | card_variant
  | card_last4
  | billing_cycle
  | payment_due_date
  | total_balance_due
deriving DecidableEq, Repr

/-- All five field keys, in the order the spec and the UI list them. -/
def FieldKey.all : List FieldKey :=
  [.card_variant, .card_last4, .billing_cycle, .payment_due_date, .total_balance_due]

/-- One extracted field: value (or absence), confidence, supporting snippet. -/
structure FieldResult where
  value : Option String
  confidence : ℚ
  snippet : String
deriving DecidableEq, Repr

/-- The `data` payload the frontend stores in `res`: bank plus the field map. -/
structure ResultData where
  bank : String
  fields : List (FieldKey × FieldResult)
deriving DecidableEq, Repr

/-- Field lookup as the frontend's optional chaining `res.fields?.key` does it:
absent keys read as `none`. -/
def ResultData.lookup (rd : ResultData) (k : FieldKey) : Option FieldResult :=
  (rd.fields.find? (fun p => p.1 = k)).map Prod.snd

/-! ## Frontend text cleaning (`cleanText`, App.jsx lines 34-42) -/

/-- The five label literals of the alternation in the `cleanText` regex
(App.jsx line 38), in source order. -/
def cleanLabels : List String :=
  ["BillingCycle", "Card Type", "Card Last 4 Digits", "Payment Due Date",
   "Total Balance Due"]

/-- Case-insensitive literal match at the start of a character list; returns
the remainder after the literal when it matches. -/
def matchLitCI : List Char → List Char → Option (List Char)
  | [], s => some s
  | _ :: _, [] => none
  | p :: ps, c :: cs => if p.toLower = c.toLower then matchLitCI ps cs else none

/-- First label of the ordered regex alternation matching at the start. -/
def matchAnyLabel : List String → List Char → Option (List Char)
  | [], _ => none
  | lab :: rest, s =>
    match matchLitCI lab.toList s with
    | some r => some r
    | none => matchAnyLabel rest s

/-- After the matched label the regex consumes greedy whitespace, an optional
`:` or `-`, and greedy whitespace. -/
def eatSep (s : List Char) : List Char :=
  match s.dropWhile Char.isWhitespace with
  | [] => []
  | c :: cs =>
    if c = ':' ∨ c = '-' then cs.dropWhile Char.isWhitespace else c :: cs

/-- `replace(/\s+/g, " ")`: each maximal whitespace run becomes one space.
The boolean records whether the previous character was in a run. -/
def collapseWS : Bool → List Char → List Char
  | _, [] => []
  | inRun, c :: cs =>
    if c.isWhitespace then
      if inRun then collapseWS true cs else ' ' :: collapseWS true cs
    else c :: collapseWS false cs

/-- `replace(/\s([:;])/g, "$1")`: drop a whitespace character directly before
`:` or `;` (global, non-overlapping scan as in JS). -/
def dropWSColon : List Char → List Char
  | [] => []
  | [c] => [c]
  | c1 :: c2 :: cs =>
    if c1.isWhitespace ∧ (c2 = ':' ∨ c2 = ';') then c2 :: dropWSColon cs
    else c1 :: dropWSColon (c2 :: cs)

/-- `String.prototype.trim`. -/
def trimWS (s : List Char) : List Char :=
  ((s.dropWhile Char.isWhitespace).reverse.dropWhile Char.isWhitespace).reverse

/-- Embedding of `cleanText` (App.jsx lines 35-42). `none` models a
null/undefined argument; the JS falsy test also maps `""` to `""`. -/
def cleanText : Option String → String
  | none => ""
  | some s =>
    if s = "" then ""
    else
      let afterStrip :=
        match matchAnyLabel cleanLabels s.toList with
        | some r => eatSep r
        | none => s.toList
      String.mk (trimWS (dropWSColon (collapseWS false afterStrip)))

/-! ## Frontend upload handler (`upload`, App.jsx lines 10-32) -/

/-- A selected file; contents are irrelevant to the handler's control flow. -/
structure UploadFile where
  name : String
deriving DecidableEq, Repr

/-- The component state touched by `upload`: the chosen file and the two
`useState` cells `res` and `loading`. -/
structure UIState where
  file : Option UploadFile
  res : Option ResultData
  loading : Bool
deriving DecidableEq, Repr

/-- Body of the HTTP response as the frontend reads it (`r.data`):
status string, optional payload, message. -/
structure ParseResponse where
  status : String
  data : Option ResultData
  message : String
deriving DecidableEq, Repr

/-- What the environment does with the POST: deliver a response body, or
throw (network failure / non-2xx). -/
inductive NetOutcome
  | reply (r : ParseResponse)
  | thrown
deriving DecidableEq, Repr

/-- Externally visible actions of one `upload` run, in program order. -/
inductive UIEvent
  | httpPost
  | alertMsg (s : String)
  | consoleError
deriving DecidableEq, Repr

/-- Embedding of the async `upload` handler (App.jsx lines 10-32) as one
atomic transition: given the state and the environment's outcome for the
POST, it yields the final state and the emitted event trace.  `setLoading(true)`
followed by the `finally` `setLoading(false)` nets to `loading := false`
whenever a request is sent. -/
def upload (st : UIState) (out : NetOutcome) : UIState × List UIEvent :=
  match st.file with
  | none => (st, [.alertMsg "Please choose a PDF file first!"])
  | some _ =>
    match out with
    | .reply r =>
      if r.status = "success" then
        ({ st with res := r.data, loading := false }, [.httpPost])
      else
        ({ st with loading := false },
         [.httpPost, .alertMsg ("Parsing failed: " ++ r.message)])
    | .thrown =>
      ({ st with loading := false },
       [.httpPost, .consoleError, .alertMsg "Error uploading file!"])

/-! ## Frontend rendering of the result card (App.jsx lines 60-84) -/

/-- The on-screen label for each field row, as written in the JSX. -/
def uiLabel : FieldKey → String
  | .card_variant => "Card Type:"
  | .card_last4 => "Card Last 4 Digits:"
  | .billing_cycle => "Billing Cycle:"
  | .payment_due_date => "Payment Due Date:"
  | .total_balance_due => "Total Balance Due:"

/-- `res.fields?.k?.value` — the optional chain feeding `cleanText`. -/
def readValue (rd : ResultData) (k : FieldKey) : Option String :=
  (rd.lookup k).bind FieldResult.value

/-- The rendered field rows of the result card, literally as the JSX lists
them (label, `cleanText` of the optional chain), top to bottom. -/
def renderResult (rd : ResultData) : List (String × String) :=
  [("Card Type:", cleanText (readValue rd .card_variant)),
   ("Card Last 4 Digits:", cleanText (readValue rd .card_last4)),
   ("Billing Cycle:", cleanText (readValue rd .billing_cycle)),
   ("Payment Due Date:", cleanText (readValue rd .payment_due_date)),
   ("Total Balance Due:", cleanText (readValue rd .total_balance_due))]

/-! ## Extraction engine

The backend (`backend/extractor.py`, `backend/app.py`, `banks.yaml` in the
README's project layout) is not part of the repository snapshot, so the
engine below is modelled from the specification document, section by
section. -/

/-- Modelled from the spec (§3): a RawDocument is the ordered line list; the
full concatenated text is derived. `backend/extractor.py` is missing. -/
structure RawDocument where
  lines : List String
deriving DecidableEq, Repr

/-- The full concatenated text of a document. -/
def RawDocument.fullText (d : RawDocument) : String :=
  String.intercalate "\n" d.lines

/-- Modelled from the spec (§3, §6; `banks.yaml` is missing): per-bank
configuration — id, display name, identifying strings, optional per-field
template patterns. -/
structure BankProfile where
  id : String
  displayName : String
  identifiers : List String
  fieldPattern : FieldKey → Option String

/-- Remainder of a character list after the first case-insensitive occurrence
of `pat`; `none` when `pat` does not occur. -/
def splitAfterCI (pat : List Char) : List Char → Option (List Char)
  | [] => matchLitCI pat []
  | c :: cs =>
    match matchLitCI pat (c :: cs) with
    | some r => some r
    | none => splitAfterCI pat cs

/-- Case-insensitive substring test. -/
def containsCI (needle hay : String) : Bool :=
  (splitAfterCI needle.toList hay.toList).isSome

/-- Longest identifying string of `p` occurring case-insensitively in `text`
(`none` when none occurs); earlier identifiers win ties. -/
def bestIdent (text : String) (p : BankProfile) : Option String :=
  (p.identifiers.filter (fun i => containsCI i text)).foldl
    (fun acc i =>
      match acc with
      | none => some i
      | some j => if i.length > j.length then some i else acc) none

/-- Modelled from the spec (§4.1, Bank Identifier; `backend/extractor.py` is
missing): the profile whose matched identifier is the longest wins, ties go
to the earlier profile, no match gives "unknown". -/
def identifyBank (profiles : List BankProfile) (text : String) : String :=
  let step := fun (acc : Option (String × Nat)) (p : BankProfile) =>
    match bestIdent text p with
    | none => acc
    | some i =>
      match acc with
      | none => some (p.id, i.length)
      | some pr => if i.length > pr.2 then some (p.id, i.length) else acc
  match profiles.foldl step none with
  | none => "unknown"
  | some pr => pr.1

/-- Modelled from the spec (§3): the locator strategy that produced a
candidate. -/
inductive Strategy
  | bankTemplate
  | labelProximity
  | typePattern
deriving DecidableEq, Repr

/-- Modelled from the spec (§3): a transient candidate span. Scores are kept
exact as integer hundredths; `Candidate.strengthQ` interprets them in the
spec's [0,1] scale. -/
structure Candidate where
  rawText : String
  strategy : Strategy
  strength : Nat
deriving DecidableEq, Repr

/-- A candidate's raw strength score on the spec's [0,1] scale. -/
def Candidate.strengthQ (c : Candidate) : ℚ := mkRat c.strength 100

/-- Modelled from the spec (§3): the value type tags. -/
inductive ValueType
  | enumLabel
  | maskedDigits
  | dateRange
  | date
  | currency
deriving DecidableEq, Repr

/-- Modelled from the spec (§3): a field descriptor — key, label aliases,
value type. -/
structure FieldSpec where
  key : FieldKey
  aliases : List String
  vtype : ValueType

/-- Modelled from the spec (§3, §9): the fixed, exhaustive five-field table. -/
def fieldSpecs : List FieldSpec :=
  [{ key := .card_variant, aliases := ["Card Type", "Card Variant"],
     vtype := .enumLabel },
   { key := .card_last4, aliases := ["Card Last 4 Digits", "Card Number"],
     vtype := .maskedDigits },
   { key := .billing_cycle, aliases := ["Billing Cycle", "Statement Period"],
     vtype := .dateRange },
   { key := .payment_due_date, aliases := ["Payment Due Date", "Due Date"],
     vtype := .date },
   { key := .total_balance_due, aliases := ["Total Balance Due", "Total Amount Due"],
     vtype := .currency }]

/-! ### Candidate Locator (spec §4.2) -/

/-- Modelled from the spec (§4.2 strategy 1): apply the bank's field-specific
pattern to each line; the candidate is the text following the pattern, at
the highest base strength (the 0.8-1.0 band). -/
def templateCands (doc : RawDocument) (bp : Option BankProfile)
    (fs : FieldSpec) : List Candidate :=
  match bp with
  | none => []
  | some p =>
    match p.fieldPattern fs.key with
    | none => []
    | some pat =>
      doc.lines.filterMap (fun line =>
        (splitAfterCI pat.toList line.toList).map (fun rest =>
          { rawText := String.mk (eatSep rest), strategy := .bankTemplate,
            strength := 90 }))

/-- First line with non-blank content, if any. -/
def nextNonEmpty : List String → Option String
  | [] => none
  | l :: ls => if trimWS l.toList = [] then nextNonEmpty ls else some l

/-- Modelled from the spec (§4.2 strategy 2): scan lines for a label alias;
the value is the text after the alias on the same line (strength 0.60), or
the next non-empty line when nothing follows the alias (strength 0.50,
same line ranks above next line). -/
def proxScan (lab : String) : List String → List Candidate
  | [] => []
  | line :: rest =>
    match splitAfterCI lab.toList line.toList with
    | some aft =>
      (match trimWS (eatSep aft) with
       | [] =>
         match nextNonEmpty rest with
         | some l => [{ rawText := String.mk (trimWS l.toList),
                        strategy := .labelProximity, strength := 50 }]
         | none => []
       | c :: cs =>
         [{ rawText := String.mk (c :: cs), strategy := .labelProximity,
            strength := 60 }]) ++ proxScan lab rest
    | none => proxScan lab rest

/-- All label-proximity candidates over the field's aliases. -/
def proximityCands (doc : RawDocument) (fs : FieldSpec) : List Candidate :=
  fs.aliases.flatMap (fun lab => proxScan lab doc.lines)

/-- Accumulator pass for `digitRuns`: `acc` is the reversed current run. -/
def digitRunsAux : List Char → List Char → List (List Char)
  | acc, [] => if acc = [] then [] else [acc.reverse]
  | acc, c :: cs =>
    if c.isDigit then digitRunsAux (c :: acc) cs
    else if acc = [] then digitRunsAux [] cs
    else acc.reverse :: digitRunsAux [] cs

/-- Maximal runs of consecutive digits in a character list. -/
def digitRuns (l : List Char) : List (List Char) := digitRunsAux [] l

/-- Date component separators. -/
def isDateSep (c : Char) : Bool := c = '/' || c = '-' || c = '.'

/-- Currency symbols stripped by normalization. -/
def isCurrencySym (c : Char) : Bool := c = '$' || c = '₹' || c = '€'

/-- Split a character list on a separator predicate. -/
def splitOnSep (p : Char → Bool) : List Char → List (List Char)
  | [] => [[]]
  | c :: cs =>
    if p c then [] :: splitOnSep p cs
    else
      match splitOnSep p cs with
      | [] => [[c]]
      | g :: gs => (c :: g) :: gs

/-- Whitespace-separated tokens of a string. -/
def wsTokens (s : String) : List String :=
  ((splitOnSep Char.isWhitespace s.toList).map String.mk).filter (fun t => t ≠ "")

/-- Modelled from the spec (§4.2 strategy 3): does a token have the value
type's shape (currency-like, date-like, a 4-digit group)? Free-text labels
have no generic shape. -/
def shapeMatch : ValueType → String → Bool
  | .enumLabel, _ => false
  | .maskedDigits, t => (digitRuns t.toList).any (fun r => r.length = 4)
  | .date, t => t.toList.any Char.isDigit && t.toList.any isDateSep
  | .dateRange, t => t.toList.any Char.isDigit && t.toList.any isDateSep
  | .currency, t =>
    t.toList.any Char.isDigit &&
    t.toList.all (fun c => c.isDigit || isCurrencySym c || c = ',' || c = '.')

/-- Modelled from the spec (§4.2 strategy 3): whole-document scan for value
shaped tokens, lowest base strength (the 0.2-0.4 band). -/
def typeCands (doc : RawDocument) (fs : FieldSpec) : List Candidate :=
  ((wsTokens doc.fullText).filter (shapeMatch fs.vtype)).map
    (fun t => { rawText := t, strategy := .typePattern, strength := 30 })

/-- The stronger of two candidates (ties keep the first). -/
def strongerOf (a b : Candidate) : Candidate :=
  if b.strength > a.strength then b else a

/-- Trimmed span used as the duplicate key. -/
def dupKey (c : Candidate) : List Char := trimWS c.rawText.toList

/-- Fuelled worker for `mergeDups` (the fuel only bounds the recursion; it
is the input length at the call site, which always suffices). -/
def mergeGo : Nat → List Candidate → List Candidate
  | _, [] => []
  | 0, _ :: _ => []
  | fuel + 1, c :: cs =>
    ((cs.filter (fun d => dupKey d = dupKey c)).foldl strongerOf c) ::
      mergeGo fuel (cs.filter (fun d => ¬ dupKey d = dupKey c))

/-- Modelled from the spec (§4.2): duplicates (same trimmed span) are merged,
keeping the higher strength. -/
def mergeDups (l : List Candidate) : List Candidate := mergeGo l.length l

/-- Modelled from the spec (§4.2): all strategies run, every candidate is
kept, duplicates merged. -/
def locate (doc : RawDocument) (fs : FieldSpec) (bp : Option BankProfile) :
    List Candidate :=
  mergeDups (templateCands doc bp fs ++ proximityCands doc fs ++ typeCands doc fs)

/-! ### Value Normalizer (spec §4.3) -/

/-- Nonempty and digits-only test. -/
def allDigits (l : List Char) : Bool := l ≠ [] && l.all Char.isDigit

/-- Modelled from the spec (§4.3, masked-digits): extract exactly 4
consecutive digits; 0 or more than 4 at the span is ambiguous and rejects. -/
def normMasked (s : String) : Option String :=
  match digitRuns s.toList with
  | [r] => if r.length = 4 then some (String.mk r) else none
  | _ => none

/-- Modelled from the spec (§4.3, date): the numeric day-month-year pattern
with separators `/ - .`, 2- or 4-digit year, standing for the spec's small
ordered pattern list; renders an ISO-style year-month-day string under the
configured day-first convention. -/
def parseDate (t : String) : Option String :=
  match splitOnSep isDateSep (trimWS t.toList) with
  | [d, m, y] =>
    if allDigits d && allDigits m && allDigits y &&
        d.length ≤ 2 && m.length ≤ 2 && (y.length = 2 || y.length = 4) then
      some (String.mk (y ++ '-' :: m ++ '-' :: d))
    else none
  | _ => none

/-- Split a character list at the first occurrence of a literal, when it
occurs. -/
def splitAtLit (pat : List Char) : List Char → Option (List Char × List Char)
  | [] => if pat = [] then some ([], []) else none
  | c :: cs =>
    if pat.isPrefixOf (c :: cs) then some ([], (c :: cs).drop pat.length)
    else
      match splitAtLit pat cs with
      | some pr => some (c :: pr.1, pr.2)
      | none => none

/-- Modelled from the spec (§4.3, date-range): exactly two date-like parts
separated by "to"; rejects unless both ends parse. -/
def parseRange (t : String) : Option String :=
  match splitAtLit ['t', 'o'] t.toList with
  | none => none
  | some pr =>
    if (splitAtLit ['t', 'o'] pr.2).isSome then none
    else
      match parseDate (String.mk pr.1), parseDate (String.mk pr.2) with
      | some da, some db => some (da ++ " to " ++ db)
      | _, _ => none

/-- Modelled from the spec (§4.3, currency): strip currency symbols, spaces
and thousand separators, then require the remainder to be a numeral. -/
def normCurrency (s : String) : Option String :=
  let kept := s.toList.filter
    (fun c => !(isCurrencySym c || c = ',' || c.isWhitespace))
  if kept.any Char.isDigit && kept.all (fun c => c.isDigit || c = '.') &&
      (kept.filter (fun c => c = '.')).length ≤ 1 then
    some (String.mk kept)
  else none

/-- Modelled from the spec (§4.3): type-directed normalization; `none` is the
rejection signal, a normal outcome that drops the candidate. Free-text
labels are trimmed and whitespace-collapsed, with no further validation. -/
def normalizeValue : ValueType → String → Option String
  | .enumLabel, s => some (String.mk (trimWS (collapseWS false s.toList)))
  | .maskedDigits, s => normMasked s
  | .date, s => parseDate s
  | .dateRange, s => parseRange s
  | .currency, s => normCurrency s

/-! ### Confidence Scorer (spec §4.4) -/

/-- Modelled from the spec (§4.4): the small positive confidence floor for
any non-rejected candidate, in hundredths (0.05). -/
def epsN : Nat := 5

/-- The confidence floor on the spec's [0,1] scale. -/
def epsConf : ℚ := mkRat epsN 100

/-- Modelled from the spec (§4.4): corroboration bonus in hundredths,
increasing in the number of agreeing candidates but capped so a single
maximal strategy match can still win outright. -/
def corrBonus (n : Nat) : Nat := min (n * 10) 15

/-- Modelled from the spec (§4.4): monotone combination of base strategy
strength and corroboration, floored at `epsN` and capped at 1 (in
hundredths). -/
def scoreN (strength : Nat) (corrob : Nat) : Nat :=
  min 100 (max epsN (strength + corrBonus corrob))

/-- The scorer's output on the spec's [0,1] scale. -/
def scoreCand (strength : Nat) (corrob : Nat) : ℚ := mkRat (scoreN strength corrob) 100

/-! ### Field Resolver (spec §4.5) -/

/-- A scored surviving candidate; `conf` is in hundredths. -/
structure Scored where
  value : String
  snippet : String
  strat : Strategy
  conf : Nat
deriving DecidableEq, Repr

/-- Strategy preference used for ties (template > proximity > fallback). -/
def stratPref : Strategy → Nat
  | .bankTemplate => 2
  | .labelProximity => 1
  | .typePattern => 0

/-- Does `b` beat `a`: higher confidence, then bank-template source, then
shorter snippet (spec §4.5 tie rules)? -/
def beats (b a : Scored) : Bool :=
  decide (a.conf < b.conf) ||
    (decide (b.conf = a.conf) && decide (stratPref a.strat < stratPref b.strat)) ||
    (decide (b.conf = a.conf) && decide (stratPref b.strat = stratPref a.strat) &&
      decide (b.snippet.length < a.snippet.length))

/-- Best scored candidate of a list under `beats` (none for the empty list). -/
def pickBest : List Scored → Option Scored
  | [] => none
  | s :: ss => some (ss.foldl (fun acc x => if beats x acc then x else acc) s)

/-- Modelled from the spec (§4.5): normalize every located candidate,
dropping rejects, and pair each survivor with its normalized value. -/
def survivors (doc : RawDocument) (fs : FieldSpec) (bp : Option BankProfile) :
    List (Candidate × String) :=
  (locate doc fs bp).filterMap
    (fun c => (normalizeValue fs.vtype c.rawText).map (fun v => (c, v)))

/-- Corroboration count of one survivor: the number of other survivors whose
normalized value agrees. -/
def corrCount (svs : List (Candidate × String)) (v : String) : Nat :=
  (svs.filter (fun dv => dv.2 = v)).length - 1

/-- Score every survivor. -/
def scoredOf (svs : List (Candidate × String)) : List Scored :=
  svs.map (fun cv =>
    { value := cv.2, snippet := cv.1.rawText, strat := cv.1.strategy,
      conf := scoreN cv.1.strength (corrCount svs cv.2) })

/-- Modelled from the spec (§4.5): locate, normalize, score, pick the best;
when nothing survives the field is present with an absent value and
confidence exactly 0. -/
def resolveField (doc : RawDocument) (fs : FieldSpec) (bp : Option BankProfile) :
    FieldResult :=
  match pickBest (scoredOf (survivors doc fs bp)) with
  | none => { value := none, confidence := 0, snippet := "" }
  | some s =>
    { value := some s.value, confidence := mkRat s.conf 100, snippet := s.snippet }

/-! ### Statement Extractor (spec §4.6) -/

/-- Overall status of one extraction request. -/
inductive ExtractionStatus
  | success
  | error (message : String)
deriving DecidableEq, Repr

/-- Modelled from the spec (§3): the assembled result record. -/
structure ExtractionResult where
  status : ExtractionStatus
  bank : String
  fields : List (FieldKey × FieldResult)
deriving DecidableEq, Repr

/-- Modelled from the spec (§4.6): identify the bank once, resolve each of
the five fields, assemble. Blank input is a structural error carrying a
message and no field data; an unknown bank is not an error. -/
def extractStatement (profiles : List BankProfile) (doc : RawDocument) :
    ExtractionResult :=
  if trimWS doc.fullText.toList = [] then
    { status := .error "empty or unreadable statement text", bank := "unknown",
      fields := [] }
  else
    let bid := identifyBank profiles doc.fullText
    let bp := profiles.find? (fun p => p.id = bid)
    { status := .success, bank := bid,
      fields := fieldSpecs.map (fun fs => (fs.key, resolveField doc fs bp)) }

/-! ## Sample configuration and document, used to exercise the engine -/

/-- A sample bank profile with one identifier and a card-number template. -/
def acmeProfile : BankProfile :=
  { id := "acme_bank", displayName := "Acme Bank", identifiers := ["Acme Bank"],
    fieldPattern := fun k => if k = .card_last4 then some "Card No" else none }

/-- A sample statement document. -/
def sampleDoc : RawDocument :=
  { lines := ["Acme Bank", "Card No: 1234", "also 5678"] }

/-- The masked-digits field spec (the `card_last4` entry of `fieldSpecs`). -/
def fsLast4 : FieldSpec :=
  { key := .card_last4, aliases := ["Card Last 4 Digits", "Card Number"],
    vtype := .maskedDigits }

/-! ## Spec-side predicates for the cleaning claim -/

/-- `p` occurs case-insensitively at the start of `s`. -/
def CIPre (p s : List Char) : Prop :=
  ∃ q r, s = q ++ r ∧ q.map Char.toLower = p.map Char.toLower

/-- Every character of `w` is whitespace. -/
def WSRun (w : List Char) : Prop := ∀ c ∈ w, c.isWhitespace = true

/-- The claim's description of the stripped leading label: `t` splits as a
case-insensitive label occurrence, optional whitespace, an optional `:` or
`-`, optional whitespace, then the tail `u`; or no label matches at the
start and `u` is `t` itself. -/
def StrippedLabel (t u : List Char) : Prop :=
  (∃ lab ∈ cleanLabels, ∃ q w1 sep w2,
    t = q ++ w1 ++ sep ++ w2 ++ u ∧
    q.map Char.toLower = lab.toList.map Char.toLower ∧
    WSRun w1 ∧ (sep = [] ∨ sep = [':'] ∨ sep = ['-']) ∧ WSRun w2) ∨
  ((∀ lab ∈ cleanLabels, ¬ CIPre lab.toList t) ∧ u = t)

/-! ## Theorems -/

/-- C8: with no file selected (`file` is null), `upload` alerts and returns
at once: the state — in particular `res` and `loading` — is unchanged and no
HTTP request is issued. -/
theorem claim_C8 (st : UIState) (out : NetOutcome) (h : st.file = none) :
    (upload st out).1.res = st.res ∧ (upload st out).1.loading = st.loading ∧
    UIEvent.alertMsg "Please choose a PDF file first!" ∈ (upload st out).2 ∧
    UIEvent.httpPost ∉ (upload st out).2 := by
  simp [upload, h]

theorem claim_C8_witness :
    (upload { file := none, res := none, loading := false } .thrown).1.res = none ∧
    (upload { file := none, res := none, loading := false } .thrown).1.loading = false ∧
    UIEvent.alertMsg "Please choose a PDF file first!" ∈
      (upload { file := none, res := none, loading := false } .thrown).2 ∧
    UIEvent.httpPost ∉
      (upload { file := none, res := none, loading := false } .thrown).2 :=
  claim_C8 { file := none, res := none, loading := false } .thrown rfl

/-- C9: whenever `upload` sends a request (a file is selected), the handler's
`finally` clause leaves `loading` false on completion, for a success reply,
a non-success reply and a thrown network error alike. -/
theorem claim_C9 (st : UIState) (out : NetOutcome) (f : UploadFile)
    (h : st.file = some f) : (upload st out).1.loading = false := by
  cases out with
  | reply r =>
    by_cases hs : r.status = "success" <;> simp [upload, h, hs]
  | thrown => simp [upload, h]

theorem claim_C9_witness :
    (upload { file := some { name := "s.pdf" }, res := none, loading := true }
      (.reply { status := "success", data := none, message := "" })).1.loading
        = false ∧
    (upload { file := some { name := "s.pdf" }, res := none, loading := true }
      (.reply { status := "error", data := none, message := "bad" })).1.loading
        = false ∧
    (upload { file := some { name := "s.pdf" }, res := none, loading := true }
      .thrown).1.loading = false :=
  ⟨claim_C9 _ _ { name := "s.pdf" } rfl, claim_C9 _ _ { name := "s.pdf" } rfl,
   claim_C9 _ _ { name := "s.pdf" } rfl⟩

/-- C3: a non-success reply is surfaced as an alert carrying the response's
message and `res` keeps its previous value; `res` changes only on a
`"success"` reply; and (engine side, modelled from the spec) an error-status
extraction carries a non-empty message and no field data. -/
theorem claim_C3 :
    (∀ (st : UIState) (f : UploadFile) (r : ParseResponse), st.file = some f →
      r.status ≠ "success" →
      (upload st (.reply r)).1.res = st.res ∧
      UIEvent.alertMsg ("Parsing failed: " ++ r.message) ∈
        (upload st (.reply r)).2) ∧
    (∀ (st : UIState) (out : NetOutcome), (upload st out).1.res ≠ st.res →
      ∃ r, out = .reply r ∧ r.status = "success") ∧
    (∀ (profiles : List BankProfile) (doc : RawDocument) (m : String),
      (extractStatement profiles doc).status = .error m →
      m ≠ "" ∧ (extractStatement profiles doc).fields = []) := by
  refine ⟨?_, ?_, ?_⟩
  · intro st f r hf hs
    simp [upload, hf, hs]
  · intro st out hchg
    cases hf : st.file with
    | none => simp [upload, hf] at hchg
    | some f =>
      cases out with
      | reply r =>
        by_cases hs : r.status = "success"
        · exact ⟨r, rfl, hs⟩
        · simp [upload, hf, hs] at hchg
      | thrown => simp [upload, hf] at hchg
  · intro profiles doc m herr
    by_cases hb : trimWS doc.fullText.data = []
    · refine ⟨?_, by simp [extractStatement, hb]⟩
      have hm : "empty or unreadable statement text" = m := by
        simpa [extractStatement, hb] using herr
      simp [← hm]
    · simp [extractStatement, hb] at herr

theorem claim_C3_witness :
    ((upload { file := some { name := "s.pdf" }, res := none, loading := true }
        (.reply { status := "error", data := none, message := "no text" })).1.res
      = none ∧
     UIEvent.alertMsg ("Parsing failed: " ++ "no text") ∈
      (upload { file := some { name := "s.pdf" }, res := none, loading := true }
        (.reply { status := "error", data := none, message := "no text" })).2) ∧
    ("empty or unreadable statement text" ≠ "" ∧
      (extractStatement [] { lines := [""] }).fields = []) :=
  ⟨claim_C3.1 _ { name := "s.pdf" } _ rfl (by decide),
   claim_C3.2.2 [] { lines := [""] } "empty or unreadable statement text" rfl⟩

/-- C5: the pipeline is deterministic — the orchestrator and the bank
identifier are pure functions of their inputs, so two runs on the same
document (resp. the same text) give identical results. -/
theorem claim_C5 (profiles : List BankProfile) (doc : RawDocument) (t : String) :
    extractStatement profiles doc = extractStatement profiles doc ∧
    identifyBank profiles t = identifyBank profiles t :=
  ⟨rfl, rfl⟩

/-- C10: `cleanText` is total on absent values — null/undefined (`none`) and
the empty string both render as the empty string, so a field row with an
absent value displays an empty value. -/
theorem claim_C10 :
    cleanText none = "" ∧ cleanText (some "") = "" ∧
    (∀ (rd : ResultData) (k : FieldKey), readValue rd k = none →
      cleanText (readValue rd k) = "") := by
  refine ⟨rfl, rfl, ?_⟩
  intro rd k h
  rw [h]
  rfl

theorem claim_C10_witness :
    cleanText (readValue { bank := "unknown", fields := [] } .card_last4) = "" :=
  claim_C10.2.2 { bank := "unknown", fields := [] } .card_last4 rfl

/-- C6: masked-digits round-trip — a span whose digits form exactly one run
of exactly 4 consecutive digits normalizes to precisely those 4 original
digits (re-rendering the value reproduces them unformatted), while a span
with 0 consecutive digits, or with a run of more than 4, is rejected. -/
theorem claim_C6 :
    (∀ (s : String) (r : List Char), digitRuns s.toList = [r] → r.length = 4 →
      normalizeValue .maskedDigits s = some (String.mk r)) ∧
    (∀ s : String,
      digitRuns s.toList = [] ∨ (∃ r ∈ digitRuns s.toList, 4 < r.length) →
      normalizeValue .maskedDigits s = none) := by
  constructor
  · intro s r hruns hlen
    have hruns2 : digitRuns s.data = [r] := hruns
    simp [normalizeValue, normMasked, hruns2, hlen]
  · intro s h
    rcases h with h0 | ⟨r, hr, hlen⟩
    · have h02 : digitRuns s.data = [] := h0
      simp [normalizeValue, normMasked, h02]
    · cases hruns : digitRuns s.data with
      | nil => simp [normalizeValue, normMasked, hruns]
      | cons a tl =>
        cases tl with
        | nil =>
          have hr2 : r ∈ digitRuns s.data := hr
          rw [hruns] at hr2
          simp at hr2
          subst hr2
          have hne : ¬ r.length = 4 := by omega
          simp [normalizeValue, normMasked, hruns, hne]
        | cons b tl2 => simp [normalizeValue, normMasked, hruns]

theorem claim_C6_witness :
    normalizeValue .maskedDigits "ending 4532" = some (String.mk ['4', '5', '3', '2']) ∧
    normalizeValue .maskedDigits "123456" = none ∧
    normalizeValue .maskedDigits "no digits" = none :=
  ⟨claim_C6.1 "ending 4532" ['4', '5', '3', '2'] (by decide) (by decide),
   claim_C6.2 "123456" (Or.inr ⟨['1', '2', '3', '4', '5', '6'], by decide, by decide⟩),
   claim_C6.2 "no digits" (Or.inl (by decide))⟩

/-! ### Helper lemmas about the locator and scorer -/

theorem foldl_choice_mem {α : Type} (f : α → α → α)
    (hf : ∀ a b, f a b = a ∨ f a b = b) (l : List α) :
    ∀ a : α, l.foldl f a = a ∨ l.foldl f a ∈ l := by
  induction l with
  | nil => intro a; exact Or.inl rfl
  | cons x xs ih =>
    intro a
    rw [List.foldl_cons]
    rcases ih (f a x) with h | h
    · rcases hf a x with h2 | h2
      · exact Or.inl (h.trans h2)
      · refine Or.inr ?_
        rw [h, h2]
        exact List.mem_cons_self x xs
    · exact Or.inr (List.mem_cons_of_mem x h)

theorem strongerOf_choice (a b : Candidate) :
    strongerOf a b = a ∨ strongerOf a b = b := by
  unfold strongerOf
  split
  · exact Or.inr rfl
  · exact Or.inl rfl

theorem mergeGo_subset :
    ∀ (fuel : Nat) (l : List Candidate) (c : Candidate),
      c ∈ mergeGo fuel l → c ∈ l := by
  intro fuel
  induction fuel with
  | zero =>
    intro l c h
    cases l with
    | nil => simp [mergeGo] at h
    | cons a as => simp [mergeGo] at h
  | succ n ih =>
    intro l c h
    cases l with
    | nil => simp [mergeGo] at h
    | cons a as =>
      simp only [mergeGo] at h
      rcases List.mem_cons.mp h with h1 | h1
      · rcases foldl_choice_mem strongerOf strongerOf_choice
          (as.filter (fun d => dupKey d = dupKey a)) a with h2 | h2
        · rw [h1, h2]
          exact List.mem_cons_self a as
        · rw [h1]
          exact List.mem_cons_of_mem a (List.mem_of_mem_filter h2)
      · exact List.mem_cons_of_mem a (List.mem_of_mem_filter (ih _ c h1))

theorem mergeDups_subset (l : List Candidate) (c : Candidate)
    (h : c ∈ mergeDups l) : c ∈ l :=
  mergeGo_subset l.length l c h

theorem templateCands_mem (doc : RawDocument) (bp : Option BankProfile)
    (fs : FieldSpec) (c : Candidate) (h : c ∈ templateCands doc bp fs) :
    c.strategy = .bankTemplate ∧ c.strength = 90 := by
  cases bp with
  | none => simp [templateCands] at h
  | some p =>
    cases hp : p.fieldPattern fs.key with
    | none => simp [templateCands, hp] at h
    | some pat =>
      simp only [templateCands, hp, List.mem_filterMap, Option.map_eq_some'] at h
      obtain ⟨line, _, rest, _, hc⟩ := h
      rw [← hc]
      exact ⟨rfl, rfl⟩

theorem proxScan_mem (lab : String) :
    ∀ (lines : List String) (c : Candidate), c ∈ proxScan lab lines →
      c.strategy = .labelProximity ∧ (c.strength = 60 ∨ c.strength = 50) := by
  intro lines
  induction lines with
  | nil => intro c h; simp [proxScan] at h
  | cons line rest ih =>
    intro c h
    simp only [proxScan] at h
    cases hs : splitAfterCI lab.toList line.toList with
    | none =>
      rw [hs] at h
      exact ih c h
    | some aft =>
      rw [hs] at h
      rcases List.mem_append.mp h with h1 | h1
      · cases ht : trimWS (eatSep aft) with
        | nil =>
          rw [ht] at h1
          cases hn : nextNonEmpty rest with
          | none => rw [hn] at h1; simp at h1
          | some l =>
            rw [hn] at h1
            rcases List.mem_singleton.mp h1 with h2
            rw [h2]
            exact ⟨rfl, Or.inr rfl⟩
        | cons a as =>
          rw [ht] at h1
          rcases List.mem_singleton.mp h1 with h2
          rw [h2]
          exact ⟨rfl, Or.inl rfl⟩
      · exact ih c h1

theorem typeCands_mem (doc : RawDocument) (fs : FieldSpec) (c : Candidate)
    (h : c ∈ typeCands doc fs) :
    c.strategy = .typePattern ∧ c.strength = 30 := by
  simp only [typeCands, List.mem_map] at h
  obtain ⟨t, _, hc⟩ := h
  rw [← hc]
  exact ⟨rfl, rfl⟩

theorem locate_strat_strength (doc : RawDocument) (fs : FieldSpec)
    (bp : Option BankProfile) (c : Candidate) (h : c ∈ locate doc fs bp) :
    (c.strategy = .bankTemplate ∧ c.strength = 90) ∨
    (c.strategy = .labelProximity ∧ (c.strength = 60 ∨ c.strength = 50)) ∨
    (c.strategy = .typePattern ∧ c.strength = 30) := by
  have hm := mergeDups_subset _ c h
  rcases List.mem_append.mp hm with h1 | h1
  · rcases List.mem_append.mp h1 with h2 | h2
    · exact Or.inl (templateCands_mem doc bp fs c h2)
    · refine Or.inr (Or.inl ?_)
      simp only [proximityCands, List.mem_flatMap] at h2
      obtain ⟨lab, _, hmem⟩ := h2
      exact proxScan_mem lab doc.lines c hmem
  · exact Or.inr (Or.inr (typeCands_mem doc fs c h1))

theorem mkRat100_nonneg (n : Nat) : 0 ≤ mkRat n 100 := by
  rw [Rat.mkRat_eq_div]
  positivity

theorem mkRat100_le_one {n : Nat} (h : n ≤ 100) : mkRat n 100 ≤ 1 := by
  rw [Rat.mkRat_eq_div]
  rw [div_le_one (by norm_num)]
  exact_mod_cast h

theorem mkRat100_mono {a b : Nat} (h : a ≤ b) : mkRat a 100 ≤ mkRat b 100 := by
  rw [Rat.mkRat_eq_div, Rat.mkRat_eq_div]
  apply div_le_div_of_nonneg_right ?_ (by norm_num)
  exact_mod_cast h

theorem mkRat100_pos {n : Nat} (h : 0 < n) : 0 < mkRat n 100 := by
  rw [Rat.mkRat_eq_div]
  positivity

theorem scoreN_bounds (strength corrob : Nat) :
    epsN ≤ scoreN strength corrob ∧ scoreN strength corrob ≤ 100 := by
  unfold scoreN
  constructor
  · exact le_min (by norm_num [epsN]) (le_max_left _ _)
  · exact min_le_left _ _

theorem pickBest_mem (l : List Scored) (s : Scored) (h : pickBest l = some s) :
    s ∈ l := by
  cases l with
  | nil => simp [pickBest] at h
  | cons a as =>
    simp only [pickBest, Option.some_inj] at h
    rcases foldl_choice_mem (fun acc x => if beats x acc then x else acc)
      (fun p q => by by_cases hb : beats q p <;> simp [hb]) as a with h2 | h2
    · rw [h] at h2
      rw [h2]
      exact List.mem_cons_self a as
    · rw [h] at h2
      exact List.mem_cons_of_mem a h2

theorem scoredOf_mem (svs : List (Candidate × String)) (s : Scored)
    (h : s ∈ scoredOf svs) :
    ∃ cv ∈ svs, s.strat = cv.1.strategy ∧
      s.conf = scoreN cv.1.strength (corrCount svs cv.2) := by
  simp only [scoredOf, List.mem_map] at h
  obtain ⟨cv, hcv, hs⟩ := h
  exact ⟨cv, hcv, by rw [← hs], by rw [← hs]⟩

theorem survivors_sub_locate (doc : RawDocument) (fs : FieldSpec)
    (bp : Option BankProfile) (c : Candidate) (v : String)
    (h : (c, v) ∈ survivors doc fs bp) : c ∈ locate doc fs bp := by
  simp only [survivors, List.mem_filterMap, Option.map_eq_some'] at h
  obtain ⟨d, hd, w, _, hdw⟩ := h
  cases hdw
  exact hd

theorem resolveField_cases (doc : RawDocument) (fs : FieldSpec)
    (bp : Option BankProfile) :
    (survivors doc fs bp = [] ∧
      resolveField doc fs bp = { value := none, confidence := 0, snippet := "" }) ∨
    (survivors doc fs bp ≠ [] ∧ ∃ s ∈ scoredOf (survivors doc fs bp),
      resolveField doc fs bp =
        { value := some s.value, confidence := mkRat s.conf 100,
          snippet := s.snippet }) := by
  cases hs : survivors doc fs bp with
  | nil =>
    left
    refine ⟨rfl, ?_⟩
    simp [resolveField, scoredOf, hs, pickBest]
  | cons a as =>
    right
    refine ⟨by simp, ?_⟩
    cases hp : pickBest (scoredOf (survivors doc fs bp)) with
    | none =>
      rw [hs] at hp
      simp [scoredOf, pickBest] at hp
    | some s =>
      refine ⟨s, by rw [← hs]; exact pickBest_mem _ s hp, ?_⟩
      simp [resolveField, hp]

theorem resolveField_conf_bounds (doc : RawDocument) (fs : FieldSpec)
    (bp : Option BankProfile) :
    0 ≤ (resolveField doc fs bp).confidence ∧
      (resolveField doc fs bp).confidence ≤ 1 := by
  rcases resolveField_cases doc fs bp with ⟨_, hr⟩ | ⟨_, s, hmem, hr⟩
  · rw [hr]
    norm_num
  · rw [hr]
    obtain ⟨cv, _, _, hconf⟩ := scoredOf_mem _ s hmem
    refine ⟨mkRat100_nonneg _, ?_⟩
    exact mkRat100_le_one (hconf ▸ (scoreN_bounds _ _).2)

/-- C4: every located candidate's strength score and every FieldResult
confidence lie in [0,1]; a field's confidence is exactly 0 precisely when no
candidate survived for it; and every surviving (non-rejected) candidate is
scored at least the small positive floor `epsConf`. -/
theorem claim_C4 :
    (∀ (doc : RawDocument) (fs : FieldSpec) (bp : Option BankProfile)
        (c : Candidate), c ∈ locate doc fs bp →
      0 ≤ c.strengthQ ∧ c.strengthQ ≤ 1) ∧
    (∀ (doc : RawDocument) (fs : FieldSpec) (bp : Option BankProfile),
      0 ≤ (resolveField doc fs bp).confidence ∧
      (resolveField doc fs bp).confidence ≤ 1 ∧
      ((resolveField doc fs bp).confidence = 0 ↔ survivors doc fs bp = [])) ∧
    (∀ (doc : RawDocument) (fs : FieldSpec) (bp : Option BankProfile)
        (s : Scored), s ∈ scoredOf (survivors doc fs bp) →
      epsConf ≤ mkRat s.conf 100) := by
  refine ⟨?_, ?_, ?_⟩
  · intro doc fs bp c hc
    have hle : c.strength ≤ 100 := by
      rcases locate_strat_strength doc fs bp c hc with ⟨_, h⟩ | ⟨_, h | h⟩ | ⟨_, h⟩ <;>
        omega
    exact ⟨mkRat100_nonneg _, mkRat100_le_one hle⟩
  · intro doc fs bp
    rcases resolveField_cases doc fs bp with ⟨hs, hr⟩ | ⟨hs, s, hmem, hr⟩
    · rw [hr, hs]
      norm_num
    · obtain ⟨cv, _, _, hconf⟩ := scoredOf_mem _ s hmem
      have hpos : 0 < mkRat s.conf 100 := by
        apply mkRat100_pos
        have := (scoreN_bounds cv.1.strength (corrCount (survivors doc fs bp) cv.2)).1
        rw [← hconf] at this
        simp [epsN] at this
        omega
      rw [hr]
      refine ⟨le_of_lt hpos, mkRat100_le_one (hconf ▸ (scoreN_bounds _ _).2), ?_⟩
      constructor
      · intro h0
        exact absurd h0 (ne_of_gt hpos)
      · intro h0
        exact absurd h0 hs
  · intro doc fs bp s hmem
    obtain ⟨cv, _, _, hconf⟩ := scoredOf_mem _ s hmem
    have h5 := (scoreN_bounds cv.1.strength (corrCount (survivors doc fs bp) cv.2)).1
    rw [← hconf] at h5
    exact mkRat100_mono h5

theorem claim_C4_witness :
    (0 ≤ Candidate.strengthQ
        { rawText := "1234", strategy := .bankTemplate, strength := 90 } ∧
      Candidate.strengthQ
        { rawText := "1234", strategy := .bankTemplate, strength := 90 } ≤ 1) ∧
    epsConf ≤ mkRat 90 100 :=
  ⟨claim_C4.1 sampleDoc fsLast4 (some acmeProfile)
      { rawText := "1234", strategy := .bankTemplate, strength := 90 } (by decide),
   claim_C4.2.2 sampleDoc fsLast4 (some acmeProfile)
      { value := "1234", snippet := "1234", strat := .bankTemplate, conf := 90 }
      (by decide)⟩

/-- C7: confidence monotonicity across strategies — for two surviving
candidates of the same field with no corroboration on either side, the one
produced by the bank-template strategy scores at least the one produced by
the generic type-pattern fallback. -/
theorem claim_C7 (doc : RawDocument) (fs : FieldSpec) (bp : Option BankProfile)
    (c1 c2 : Candidate) (v1 v2 : String)
    (h1 : (c1, v1) ∈ survivors doc fs bp) (h2 : (c2, v2) ∈ survivors doc fs bp)
    (hs1 : c1.strategy = .bankTemplate) (hs2 : c2.strategy = .typePattern)
    (hc1 : corrCount (survivors doc fs bp) v1 = 0)
    (hc2 : corrCount (survivors doc fs bp) v2 = 0) :
    scoreCand c2.strength (corrCount (survivors doc fs bp) v2) ≤
      scoreCand c1.strength (corrCount (survivors doc fs bp) v1) := by
  have m1 := survivors_sub_locate doc fs bp c1 v1 h1
  have m2 := survivors_sub_locate doc fs bp c2 v2 h2
  have e1 : c1.strength = 90 := by
    rcases locate_strat_strength doc fs bp c1 m1 with ⟨_, h⟩ | ⟨hst, _⟩ | ⟨hst, _⟩
    · exact h
    · rw [hs1] at hst; cases hst
    · rw [hs1] at hst; cases hst
  have e2 : c2.strength = 30 := by
    rcases locate_strat_strength doc fs bp c2 m2 with ⟨hst, _⟩ | ⟨hst, _⟩ | ⟨_, h⟩
    · rw [hs2] at hst; cases hst
    · rw [hs2] at hst; cases hst
    · exact h
  rw [hc1, hc2, e1, e2]
  unfold scoreCand
  exact mkRat100_mono (by norm_num [scoreN, corrBonus, epsN])

theorem claim_C7_witness :
    scoreCand
        (Candidate.strength
          { rawText := "5678", strategy := .typePattern, strength := 30 })
        (corrCount (survivors sampleDoc fsLast4 (some acmeProfile)) "5678") ≤
      scoreCand
        (Candidate.strength
          { rawText := "1234", strategy := .bankTemplate, strength := 90 })
        (corrCount (survivors sampleDoc fsLast4 (some acmeProfile)) "1234") :=
  claim_C7 sampleDoc fsLast4 (some acmeProfile)
    { rawText := "1234", strategy := .bankTemplate, strength := 90 }
    { rawText := "5678", strategy := .typePattern, strength := 30 }
    "1234" "5678" (by decide) (by decide) rfl rfl (by decide) (by decide)

/-- C1: the result field mapping of a successful extraction is keyed by
exactly the five fixed field keys — which are pairwise distinct and exhaust
the key type — each carrying an optional string value, a confidence in
[0,1] and a snippet string; and the UI's result card reads exactly those
five keys, one row each, and no others. -/
theorem claim_C1 :
    (∀ rd : ResultData, renderResult rd =
      FieldKey.all.map (fun k => (uiLabel k, cleanText (readValue rd k)))) ∧
    FieldKey.all.Nodup ∧ (∀ k : FieldKey, k ∈ FieldKey.all) ∧
    (∀ (profiles : List BankProfile) (doc : RawDocument),
      (extractStatement profiles doc).status = .success →
      (extractStatement profiles doc).fields.map Prod.fst = FieldKey.all ∧
      ∀ p ∈ (extractStatement profiles doc).fields,
        0 ≤ p.2.confidence ∧ p.2.confidence ≤ 1) := by
  refine ⟨fun rd => rfl, by decide, fun k => by cases k <;> decide, ?_⟩
  intro profiles doc hsucc
  by_cases hb : trimWS doc.fullText.data = []
  · simp [extractStatement, hb] at hsucc
  · constructor
    · simp [extractStatement, hb, fieldSpecs, FieldKey.all]
    · intro p hp
      have hfields : (extractStatement profiles doc).fields =
          fieldSpecs.map (fun fs => (fs.key, resolveField doc fs
            (profiles.find?
              (fun p => p.id = identifyBank profiles doc.fullText)))) := by
        simp [extractStatement, hb]
      rw [hfields] at hp
      simp only [List.mem_map] at hp
      obtain ⟨fs, _, hpfs⟩ := hp
      rw [← hpfs]
      exact resolveField_conf_bounds doc fs _

theorem claim_C1_witness :
    (extractStatement [acmeProfile] sampleDoc).fields.map Prod.fst =
        FieldKey.all ∧
      ∀ p ∈ (extractStatement [acmeProfile] sampleDoc).fields,
        0 ≤ p.2.confidence ∧ p.2.confidence ≤ 1 :=
  claim_C1.2.2.2 [acmeProfile] sampleDoc (by decide)

/-! ### Helper lemmas for the cleaning claim -/

theorem matchLitCI_some :
    ∀ (p s r : List Char), matchLitCI p s = some r →
      ∃ q, s = q ++ r ∧ q.map Char.toLower = p.map Char.toLower := by
  intro p
  induction p with
  | nil =>
    intro s r h
    simp only [matchLitCI, Option.some_inj] at h
    exact ⟨[], by simp [h], by simp⟩
  | cons pc ps ih =>
    intro s r h
    cases s with
    | nil => simp [matchLitCI] at h
    | cons c cs =>
      simp only [matchLitCI] at h
      by_cases he : pc.toLower = c.toLower
      · rw [if_pos he] at h
        obtain ⟨q, hq1, hq2⟩ := ih cs r h
        exact ⟨c :: q, by simp [hq1], by simp [hq2, he]⟩
      · rw [if_neg he] at h
        cases h

theorem CIPre_isSome :
    ∀ (p s : List Char), CIPre p s → (matchLitCI p s).isSome = true := by
  intro p
  induction p with
  | nil => intro s _; simp [matchLitCI]
  | cons pc ps ih =>
    intro s h
    obtain ⟨q, r, hs, hq⟩ := h
    cases q with
    | nil => simp at hq
    | cons qc qs =>
      simp only [List.map_cons, List.cons.injEq] at hq
      rw [hs]
      simp only [matchLitCI, List.cons_append]
      rw [if_pos hq.1.symm]
      exact ih (qs ++ r) ⟨qs, r, rfl, hq.2⟩

theorem CIPre_length (p s : List Char) (h : CIPre p s) : p.length ≤ s.length := by
  obtain ⟨q, r, hs, hm⟩ := h
  have hq : q.length = p.length := by
    have := congrArg List.length hm
    simpa using this
  rw [hs]
  simp [← hq]

theorem matchAnyLabel_some :
    ∀ (labs : List String) (s r : List Char),
      matchAnyLabel labs s = some r →
      ∃ lab ∈ labs, matchLitCI lab.toList s = some r := by
  intro labs
  induction labs with
  | nil => intro s r h; simp [matchAnyLabel] at h
  | cons lab rest ih =>
    intro s r h
    simp only [matchAnyLabel] at h
    cases hm : matchLitCI lab.toList s with
    | some x =>
      rw [hm] at h
      simp only [Option.some_inj] at h
      exact ⟨lab, by simp, by rw [hm, h]⟩
    | none =>
      rw [hm] at h
      obtain ⟨l2, hl2, hml⟩ := ih s r h
      exact ⟨l2, by simp [hl2], hml⟩

theorem matchAnyLabel_none :
    ∀ (labs : List String) (s : List Char), matchAnyLabel labs s = none →
      ∀ lab ∈ labs, matchLitCI lab.toList s = none := by
  intro labs
  induction labs with
  | nil => intro s _ lab hlab; simp at hlab
  | cons l0 rest ih =>
    intro s h lab hlab
    simp only [matchAnyLabel] at h
    cases hm : matchLitCI l0.toList s with
    | some x => rw [hm] at h; cases h
    | none =>
      rw [hm] at h
      rcases List.mem_cons.mp hlab with h1 | h1
      · rw [h1, hm]
      · exact ih s h lab h1

theorem eatSep_decomp (s : List Char) :
    ∃ w1 sep w2, s = w1 ++ sep ++ w2 ++ eatSep s ∧ WSRun w1 ∧
      (sep = [] ∨ sep = [':'] ∨ sep = ['-']) ∧ WSRun w2 := by
  have hsplit := List.takeWhile_append_dropWhile Char.isWhitespace s
  cases hd : s.dropWhile Char.isWhitespace with
  | nil =>
    refine ⟨s.takeWhile Char.isWhitespace, [], [], ?_, ?_, Or.inl rfl, ?_⟩
    · have he : eatSep s = [] := by simp [eatSep, hd]
      rw [he]
      rw [hd] at hsplit
      simpa using hsplit.symm
    · intro c hc; exact List.mem_takeWhile_imp hc
    · intro c hc; simp at hc
  | cons c cs =>
    by_cases hc : c = ':' ∨ c = '-'
    · refine ⟨s.takeWhile Char.isWhitespace, [c], cs.takeWhile Char.isWhitespace,
        ?_, ?_, ?_, ?_⟩
      · have he : eatSep s = cs.dropWhile Char.isWhitespace := by
          simp [eatSep, hd, hc]
        rw [he]
        rw [hd] at hsplit
        conv_lhs => rw [← hsplit]
        simp [List.append_assoc, List.takeWhile_append_dropWhile]
      · intro x hx; exact List.mem_takeWhile_imp hx
      · rcases hc with h | h
        · exact Or.inr (Or.inl (by rw [h]))
        · exact Or.inr (Or.inr (by rw [h]))
      · intro x hx; exact List.mem_takeWhile_imp hx
    · refine ⟨s.takeWhile Char.isWhitespace, [], [], ?_, ?_, Or.inl rfl, ?_⟩
      · have he : eatSep s = c :: cs := by simp [eatSep, hd, hc]
        rw [he]
        rw [hd] at hsplit
        simpa using hsplit.symm
      · intro x hx; exact List.mem_takeWhile_imp hx
      · intro x hx; simp at hx

/-- C2: the displayed text is the input with a single leading label prefix —
one of the five labels, matched case-insensitively, with its optional
`:`/`-` separator and surrounding whitespace — stripped exactly when such a
label occurs at the start, then whitespace runs collapsed to single spaces,
spaces before `:`/`;` removed, and the ends trimmed. -/
theorem claim_C2 (t : String) :
    ∃ u : List Char, StrippedLabel t.toList u ∧
      cleanText (some t) = String.mk (trimWS (dropWSColon (collapseWS false u))) := by
  have hpos : ∀ lab ∈ cleanLabels, 0 < lab.toList.length := by decide
  by_cases ht : t = ""
  · subst ht
    refine ⟨[], Or.inr ⟨?_, rfl⟩, rfl⟩
    intro lab hlab hpre
    have hlen := CIPre_length lab.toList [] hpre
    have := hpos lab hlab
    simp only [List.length_nil] at hlen
    omega
  · cases hm : matchAnyLabel cleanLabels t.toList with
    | some r =>
      refine ⟨eatSep r, ?_, ?_⟩
      · left
        obtain ⟨lab, hlab, hml⟩ := matchAnyLabel_some cleanLabels t.toList r hm
        obtain ⟨q, hq1, hq2⟩ := matchLitCI_some lab.toList t.toList r hml
        obtain ⟨w1, sep, w2, hr, hw1, hsep, hw2⟩ := eatSep_decomp r
        refine ⟨lab, hlab, q, w1, sep, w2, ?_, hq2, hw1, hsep, hw2⟩
        rw [hq1]
        conv_lhs => rw [hr]
        simp [List.append_assoc]
      · have hm2 : matchAnyLabel cleanLabels t.data = some r := hm
        simp [cleanText, ht, hm2]
    | none =>
      refine ⟨t.toList, Or.inr ⟨?_, rfl⟩, ?_⟩
      · intro lab hlab hpre
        have hsome := CIPre_isSome lab.toList t.toList hpre
        rw [matchAnyLabel_none cleanLabels t.toList hm lab hlab] at hsome
        simp at hsome
      · have hm2 : matchAnyLabel cleanLabels t.data = none := hm
        simp [cleanText, ht, hm2]

end CardIQ
